import Mathlib

/-!
Verification of the nefcode.io progress-tracking core against its
natural-language specification.

The TypeScript sources are shallowly embedded: JS strings are modelled as
`List Char`, keyed Dexie tables as association lists, asynchronous mutations
as pure state transformers, and the event-loop interleaving of the lazy
scheduler as an explicit small-step system.  The WHATWG URL constructor used
by the identity normalizer is modelled by a structural parser that splits a
string into scheme, authority, path, query and fragment; percent-encoding,
host validation and special-scheme path defaults are outside the model and
are noted where relevant.
-/

namespace Nefcode

/-- Characters of a JS string. -/
abbrev Str := List Char

/-- Whitespace test used by the model of the JS trim operation. -/
def isWS (c : Char) : Bool := c.isWhitespace

/-- Model of the JS dropping of leading whitespace. -/
def trimL (s : Str) : Str := s.dropWhile isWS

/-- Model of the JS dropping of trailing whitespace. -/
def trimR (s : Str) : Str := (s.reverse.dropWhile isWS).reverse

/-- Model of the JS string trim method: drop whitespace at both ends. -/
def jsTrim (s : Str) : Str := trimR (trimL s)

/-- Last character of a string, if any. -/
def lastChar (s : Str) : Option Char := s.getLast?

/-- Model of the endsWith-slash test followed by slice that both
normalizers use: remove exactly one trailing slash when present. -/
def stripSlash (s : Str) : Str :=
  if lastChar s = some '/' then s.dropLast else s

/-- Scheme characters accepted after the first character of a URL scheme. -/
def schemeChar (c : Char) : Bool := c.isAlpha || c.isDigit || c = '+' || c = '-' || c = '.'

/-- Validity of a URL scheme: nonempty, alphabetic first character, then
scheme characters. -/
def schemeOk (s : Str) : Bool :=
  match s with
  | [] => false
  | c :: rest => c.isAlpha && rest.all schemeChar

/-- Split a string at the first colon, returning the part before and after. -/
def splitAtColon : Str → Option (Str × Str)
  | [] => none
  | c :: r =>
    if c = ':' then some ([], r)
    else (splitAtColon r).map (fun p => (c :: p.1, p.2))

/-- Characters that end the authority component of a URL. -/
def notAuthEnd (c : Char) : Bool := !(c = '/' || c = '?' || c = '#')

/-- Characters that are not path terminators. -/
def notPathEnd (c : Char) : Bool := !(c = '?' || c = '#')

/-- Structural model of a parsed WHATWG URL. -/
structure Url where
  scheme : Str
  authority : Option Str
  path : Str
  query : Option Str
  frag : Option Str
deriving DecidableEq, Repr

/-- Parse of the query and fragment components from the text following the
path.  The argument is empty or starts with a question mark or hash because
it is produced by dropping the path. -/
def parseTail (rest : Str) : Option Str × Option Str :=
  match rest with
  | [] => (none, none)
  | c :: r =>
    if c = '?' then
      match r.drop (r.takeWhile (fun x => x ≠ '#')).length with
      | [] => (some (r.takeWhile (fun x => x ≠ '#')), none)
      | c2 :: f =>
        if c2 = '#' then (some (r.takeWhile (fun x => x ≠ '#')), some f)
        else (some (r.takeWhile (fun x => x ≠ '#')), none)
    else if c = '#' then (none, some r)
    else (none, none)

/-- Parse of the path, query and fragment from the text after the scheme and
authority. -/
def parsePQF (sc : Str) (auth : Option Str) (s : Str) : Url :=
  ⟨sc, auth, s.takeWhile notPathEnd,
    (parseTail (s.drop (s.takeWhile notPathEnd).length)).1,
    (parseTail (s.drop (s.takeWhile notPathEnd).length)).2⟩

/-- Structural model of the WHATWG URL constructor: succeeds exactly when a
valid scheme precedes the first colon, then splits authority, path, query
and fragment at their delimiters.  Host validation, percent-encoding and
special-scheme path normalization are not modelled. -/
def urlParse (s : Str) : Option Url :=
  match splitAtColon s with
  | none => none
  | some (sc, rest) =>
    if schemeOk sc then
      match rest with
      | c1 :: c2 :: r =>
        if c1 = '/' ∧ c2 = '/' then
          some (parsePQF sc (some (r.takeWhile notAuthEnd))
            (r.drop (r.takeWhile notAuthEnd).length))
        else some (parsePQF sc none rest)
      | _ => some (parsePQF sc none rest)
    else none

/-- Serialization of a parsed URL back to its character sequence. -/
def urlSerialize (u : Url) : Str :=
  u.scheme ++ ':' ::
    ((match u.authority with
      | some a => '/' :: '/' :: a
      | none => []) ++
     u.path ++
     (match u.query with
      | some q => '?' :: q
      | none => []) ++
     (match u.frag with
      | some f => '#' :: f
      | none => []))

/-- Fallback cleanup used by both normalizers when URL parsing fails:
split on hash, split on question mark, trim, strip one trailing slash.
Translated from the catch branch of normalizeLink in src/domain/normalize.ts. -/
def fallbackCleanup (t : Str) : Str :=
  stripSlash (jsTrim ((t.takeWhile (fun c => c ≠ '#')).takeWhile (fun c => c ≠ '?')))

/-- Translation of normalizeLink (src/domain/normalize.ts): trim, attempt URL
parsing, clear hash and search and reserialize, strip one trailing slash;
on parse failure fall back to manual cleanup. -/
def normalizeLink (input : Str) : Str :=
  match urlParse (jsTrim input) with
  | some u => stripSlash (urlSerialize { u with query := none, frag := none })
  | none => fallbackCleanup (jsTrim input)

/-- Translation of normalizeProblemLink (tracker/src/shared/normalize.ts),
the browser-extension counterpart of normalizeLink. -/
def normalizeProblemLink (raw : Str) : Str :=
  match urlParse (jsTrim raw) with
  | some u => stripSlash (urlSerialize { u with query := none, frag := none })
  | none =>
    stripSlash (jsTrim (((jsTrim raw).takeWhile (fun c => c ≠ '#')).takeWhile
      (fun c => c ≠ '?')))

/-- Difficulty tag of a problem (src/domain/types.ts). -/
inductive Difficulty
  | EASY
  | MEDIUM
  | HARD
deriving DecidableEq, Repr

/-- Raw CSV row as it arrives from the parser, every field possibly absent
(src/domain/types.ts, CsvRowRaw).  Fields not used by any claim (frequency,
acceptance rate, topics) are omitted. -/
structure CsvRowRaw where
  title : Option Str
  linkField : Option Str
  difficultyField : Option Str
deriving DecidableEq, Repr

/-- Validated problem row (src/domain/types.ts, ProblemRow), restricted to
the fields the statistics pipeline reads. -/
structure ProblemRow where
  difficulty : Difficulty
  title : Str
  link : Str
deriving DecidableEq, Repr

/-- Uppercase conversion used on the raw difficulty field. -/
def toUpperStr (s : Str) : Str := s.map Char.toUpper

/-- Recognition of a difficulty tag (src/domain/normalize.ts, isDifficulty). -/
def parseDifficultyTag (s : Str) : Option Difficulty :=
  if s = ['E', 'A', 'S', 'Y'] then some .EASY
  else if s = ['M', 'E', 'D', 'I', 'U', 'M'] then some .MEDIUM
  else if s = ['H', 'A', 'R', 'D'] then some .HARD
  else none

/-- Validation of one CSV row, translated from the row body of
normalizeProblemRows (src/domain/normalize.ts): missing title, missing link,
invalid difficulty or empty normalized link drop the row; otherwise the link
is canonicalized with normalizeLink. -/
def validateRow (r : CsvRowRaw) : Option ProblemRow :=
  let title := jsTrim (r.title.getD [])
  let linkRaw := jsTrim (r.linkField.getD [])
  let diffRaw := toUpperStr (jsTrim (r.difficultyField.getD []))
  if title = [] then none
  else if linkRaw = [] then none
  else
    match parseDifficultyTag diffRaw with
    | none => none
    | some d =>
      let link := normalizeLink linkRaw
      if link = [] then none
      else some ⟨d, title, link⟩

/-- Items produced by normalizeProblemRows: the valid rows in order; invalid
rows are dropped (they are recorded as issues in the source, which only
their count reaches the caller). -/
def parseItems (rows : List CsvRowRaw) : List ProblemRow :=
  rows.filterMap validateRow

/-- Identity-to-difficulty accumulator of getCompanyStats, in insertion
order (JS Map preserves insertion order). -/
abbrev LinkMap := List (Str × Difficulty)

/-- Lookup in the identity-to-difficulty accumulator. -/
def lmFind (m : LinkMap) (l : Str) : Option Difficulty :=
  (m.find? (fun p => p.1 = l)).map (fun p => p.2)

/-- Translation of inc (src/stats/companyStats.ts): insert only when the
identity is not yet present, so an earlier write wins. -/
def inc (m : LinkMap) (l : Str) (d : Difficulty) : LinkMap :=
  if (lmFind m l).isSome then m else m ++ [(l, d)]

/-- Merge of one list of parsed rows into the accumulator, translated from
the per-file loop body of getCompanyStats. -/
def mergeRows (rows : List ProblemRow) (m : LinkMap) : LinkMap :=
  rows.foldl (fun acc r => inc acc r.link r.difficulty) m

/-- Outcome of loadCsv for one source file: a thrown fetch error, or the
parsed rows.  Parsing itself never throws in the source (parser errors are
salvaged and only counted), so failure here models a fetch rejection. -/
abbrev SourceResult := Except Unit (List CsvRowRaw)

/-- Aggregation of all source files of a scope, translated from the
withConcurrency block of getCompanyStats together with the rejection
semantics of withConcurrency (src/utils/functions.ts): a worker that throws
rejects the whole computation, so one failing source aborts the merge.  A
single sequential schedule of the worker pool is modelled; the event loop
may interleave source completions in other orders, which permutes the merge
order but not the rejection behavior. -/
def aggregateSources (sources : List SourceResult) : Except Unit LinkMap :=
  sources.foldl
    (fun acc src =>
      match acc, src with
      | .error e, _ => .error e
      | .ok _, .error e => .error e
      | .ok m, .ok rows => .ok (mergeRows (parseItems rows) m))
    (.ok [])

/-- Progress record stored in the ledger (src/storage/db.ts,
ProblemProgress). -/
structure ProblemProgress where
  link : Str
  completed : Bool
  minutes : Option Int
  notes : Option Str
  updatedAt : Nat
  difficulty : Difficulty
deriving DecidableEq, Repr

/-- Keyed table modelled as an association list; the first matching entry is
the visible row. -/
abbrev Table (α : Type) := List (Str × α)

/-- Read of a keyed table by primary key. -/
def tget {α : Type} (t : Table α) (k : Str) : Option α :=
  (t.find? (fun p => p.1 = k)).map (fun p => p.2)

/-- Upsert into a keyed table: the new row shadows any previous row with the
same key. -/
def tput {α : Type} (t : Table α) (k : Str) (v : α) : Table α :=
  (k, v) :: t

/-- Solved and total counters of the company aggregate
(src/storage/companyCache.ts, CachedCompanyStats). -/
structure SolvedTotal where
  solved : Nat
  total : Nat
deriving DecidableEq, Repr

/-- Aggregate shape of company statistics. -/
structure CachedCompanyStats where
  easy : SolvedTotal
  medium : SolvedTotal
  hard : SolvedTotal
  total : SolvedTotal
deriving DecidableEq, Repr

/-- Translation of emptyCompanyStats (src/stats/companyStats.ts), without
the anySolved field which is derived downstream. -/
def emptyCompanyStats : CachedCompanyStats :=
  ⟨⟨0, 0⟩, ⟨0, 0⟩, ⟨0, 0⟩, ⟨0, 0⟩⟩

/-- Count of accumulator entries carrying a given difficulty, modelling the
totals fold of getCompanyStats. -/
def totalsByDiff (m : LinkMap) (d : Difficulty) : Nat :=
  (m.filter (fun p => p.2 = d)).length

/-- Completed ledger rows among the accumulator keys, modelling the Dexie
anyOf query of getCompanyStats over the primary key as one lookup per
distinct key followed by the completed filter. -/
def solvedRowsOf (m : LinkMap) (progress : Table ProblemProgress) : List ProblemProgress :=
  ((m.map (fun p => p.1)).filterMap (fun l => tget progress l)).filter (fun r => r.completed)

/-- Solved count per difficulty: each solved row is bucketed by the
accumulator difficulty for its link (the CSV truth), rows whose link is
missing from the accumulator are skipped. -/
def solvedByDiffOf (m : LinkMap) (progress : Table ProblemProgress) (d : Difficulty) : Nat :=
  ((solvedRowsOf m progress).filter (fun r => lmFind m r.link = some d)).length

/-- Translation of the compute section of getCompanyStats
(src/stats/companyStats.ts) after the accumulator is built: totals count the
accumulator entries per CSV difficulty, solved rows are the completed ledger
rows among the accumulator keys, and solved buckets use the accumulator
difficulty, never the ledger snapshot. -/
def computeStats (m : LinkMap) (progress : Table ProblemProgress) : CachedCompanyStats :=
  if (m.map (fun p => p.1)).length = 0 then emptyCompanyStats
  else
    { easy := ⟨solvedByDiffOf m progress .EASY, totalsByDiff m .EASY⟩
      medium := ⟨solvedByDiffOf m progress .MEDIUM, totalsByDiff m .MEDIUM⟩
      hard := ⟨solvedByDiffOf m progress .HARD, totalsByDiff m .HARD⟩
      total := ⟨(solvedRowsOf m progress).length, (m.map (fun p => p.1)).length⟩ }

/-- Compute path of getCompanyStats on a cache miss: aggregate the sources,
then reduce against the progress ledger; a failing source rejects the whole
computation. -/
def getCompanyStatsCompute (sources : List SourceResult)
    (progress : Table ProblemProgress) : Except Unit CachedCompanyStats :=
  (aggregateSources sources).map (fun m => computeStats m progress)

/-- Meta row of the version counter table (src/storage/db.ts, MetaRow). -/
structure MetaRow where
  value : Nat
  updatedAt : Nat
deriving DecidableEq, Repr

/-- Cached company row as persisted (src/storage/db.ts, CompanyCacheRow);
the compound key is kept in the table, the remaining fields here. -/
structure CompanyCacheRow where
  manifestAt : Str
  company : Str
  totalEasy : Nat
  totalMedium : Nat
  totalHard : Nat
  totalAll : Nat
  solvedEasy : Nat
  solvedMedium : Nat
  solvedHard : Nat
  solvedAll : Nat
  progressVersion : Nat
  computedAt : Nat
deriving DecidableEq, Repr

/-- Cached single-list row (src/storage/db.ts, ListStatsCacheRow). -/
structure ListStatsCacheRow where
  manifestAt : Str
  listUrl : Str
  solved : Nat
  total : Nat
  progressVersion : Nat
  computedAt : Nat
deriving DecidableEq, Repr

/-- Persisted state of the IndexedDB tables the claims touch. -/
structure DBState where
  progress : Table ProblemProgress
  meta : Table MetaRow
  companyCache : Table CompanyCacheRow
  listStatsCache : Table ListStatsCacheRow
deriving Repr

/-- Key of the version counter row (src/storage/meta.ts). -/
def progressVersionKey : Str :=
  ['p', 'r', 'o', 'g', 'r', 'e', 's', 's', '_', 'v', 'e', 'r', 's', 'i', 'o', 'n']

/-- Translation of getProgressVersion (src/storage/meta.ts): the stored
counter value, or 0 when the row is absent. -/
def getProgressVersion (db : DBState) : Nat :=
  match tget db.meta progressVersionKey with
  | some row => row.value
  | none => 0

/-- Translation of bumpProgressVersion (src/storage/meta.ts): atomic
read-modify-write of the counter row, returning the new value. -/
def bumpProgressVersion (db : DBState) (now : Nat) : DBState × Nat :=
  let nextValue := getProgressVersion db + 1
  ({ db with meta := tput db.meta progressVersionKey ⟨nextValue, now⟩ }, nextValue)

/-- Translation of toggleCompleted (src/storage/progress.ts): create a row
with completed true when absent, otherwise negate the flag; updatedAt is
rewritten in both cases.  No other table is written. -/
def toggleCompleted (db : DBState) (link : Str) (difficulty : Difficulty)
    (now : Nat) : DBState :=
  match tget db.progress link with
  | none =>
    { db with progress := tput db.progress link ⟨link, true, none, none, now, difficulty⟩ }
  | some existing =>
    let row := { existing with completed := !existing.completed, updatedAt := now }
    { db with progress := tput db.progress link row }

/-- Translation of setMinutes (src/storage/progress.ts). -/
def setMinutes (db : DBState) (link : Str) (minutes : Option Int)
    (difficulty : Difficulty) (now : Nat) : DBState :=
  match tget db.progress link with
  | none =>
    { db with progress := tput db.progress link ⟨link, false, minutes, none, now, difficulty⟩ }
  | some existing =>
    let row := { existing with minutes := minutes, updatedAt := now }
    { db with progress := tput db.progress link row }

/-- Translation of setNotes (src/storage/progress.ts). -/
def setNotes (db : DBState) (link : Str) (notes : Option Str)
    (difficulty : Difficulty) (now : Nat) : DBState :=
  match tget db.progress link with
  | none =>
    { db with progress := tput db.progress link ⟨link, false, none, notes, now, difficulty⟩ }
  | some existing =>
    let row := { existing with notes := notes, updatedAt := now }
    { db with progress := tput db.progress link row }

/-- One committed ledger mutation, as the spec enumerates them. -/
inductive Mutation
  | toggle (link : Str) (d : Difficulty) (now : Nat)
  | minutes (link : Str) (m : Option Int) (d : Difficulty) (now : Nat)
  | notes (link : Str) (n : Option Str) (d : Difficulty) (now : Nat)
deriving Repr

/-- Application of one ledger mutation to the persisted state. -/
def applyMutation (db : DBState) : Mutation → DBState
  | .toggle link d now => toggleCompleted db link d now
  | .minutes link m d now => setMinutes db link m d now
  | .notes link n d now => setNotes db link n d now

/-- Application of a sequence of committed ledger mutations. -/
def applyMutations (db : DBState) (ms : List Mutation) : DBState :=
  ms.foldl applyMutation db

/-- Compound cache key, the template string of makeKey in
src/storage/companyCache.ts. -/
def makeKey (manifestAt scope : Str) : Str := manifestAt ++ ':' :: ':' :: scope

/-- Stats view of a stored company cache row, as rebuilt by
readCompanyCache. -/
def rowToStats (row : CompanyCacheRow) : CachedCompanyStats :=
  { easy := ⟨row.solvedEasy, row.totalEasy⟩
    medium := ⟨row.solvedMedium, row.totalMedium⟩
    hard := ⟨row.solvedHard, row.totalHard⟩
    total := ⟨row.solvedAll, row.totalAll⟩ }

/-- Translation of readCompanyCache (src/storage/companyCache.ts): absent
row gives null; a row stamped with a version other than the current counter
is treated as stale and gives null. -/
def readCompanyCache (db : DBState) (manifestAt company : Str) :
    Option CachedCompanyStats :=
  match tget db.companyCache (makeKey manifestAt company) with
  | none => none
  | some row =>
    if row.progressVersion = getProgressVersion db then some (rowToStats row)
    else none

/-- Translation of writeCompanyCache (src/storage/companyCache.ts): persist
the stats stamped with the current counter value. -/
def writeCompanyCache (db : DBState) (manifestAt company : Str)
    (stats : CachedCompanyStats) (now : Nat) : DBState :=
  let progressVersion := getProgressVersion db
  let row : CompanyCacheRow :=
        { manifestAt := manifestAt
          company := company
          totalEasy := stats.easy.total
          totalMedium := stats.medium.total
          totalHard := stats.hard.total
          totalAll := stats.total.total
          solvedEasy := stats.easy.solved
          solvedMedium := stats.medium.solved
          solvedHard := stats.hard.solved
          solvedAll := stats.total.solved
          progressVersion := progressVersion
          computedAt := now }
  { db with companyCache := tput db.companyCache (makeKey manifestAt company) row }

/-- Translation of readListStatsCache (src/storage/listStatsCache.ts), the
single-list granularity of the same cache contract. -/
def readListStatsCache (db : DBState) (manifestAt listUrl : Str) :
    Option SolvedTotal :=
  match tget db.listStatsCache (makeKey manifestAt listUrl) with
  | none => none
  | some row =>
    if row.progressVersion = getProgressVersion db then some ⟨row.solved, row.total⟩
    else none

/-- Translation of writeListStatsCache (src/storage/listStatsCache.ts). -/
def writeListStatsCache (db : DBState) (manifestAt listUrl : Str)
    (stats : SolvedTotal) (now : Nat) : DBState :=
  let progressVersion := getProgressVersion db
  let row : ListStatsCacheRow :=
        { manifestAt := manifestAt
          listUrl := listUrl
          solved := stats.solved
          total := stats.total
          progressVersion := progressVersion
          computedAt := now }
  { db with listStatsCache := tput db.listStatsCache (makeKey manifestAt listUrl) row }

/-- Phase of one scope-computation task inside the lazy scheduler
(src/hooks/useCompanyStatsLazy.ts).  The phases are the gaps between the
suspension points of the task body: the synchronous check of the in-flight
set followed by marking, the awaited getCompanyStats call, and the finally
block that clears the marker. -/
inductive TPhase
  | toCheck
  | toRun
  | toRelease
  | finished
deriving DecidableEq, Repr

/-- State of one scheduler task.  The ok flag records whether the awaited
computation resolved or threw; the finally block runs either way. -/
structure TaskSt where
  phase : TPhase
  skipped : Bool
  ok : Bool
deriving DecidableEq, Repr

/-- Shared scheduler state: the in-flight key set and the number of
getCompanyStats invocations so far. -/
structure PoolSt where
  inflight : List Str
  calls : Nat
deriving DecidableEq, Repr

/-- One atomic step of a scheduler task for a fixed key, translated from the
worker body of useCompanyStatsLazy.  The in-flight check and the insertion
happen with no await between them, so they form one step; the run step
counts the getCompanyStats invocation and records the outcome; the release
step is the finally block and runs for both outcomes. -/
def taskStep (key : Str) (outcome : Bool) (t : TaskSt) (s : PoolSt) : TaskSt × PoolSt :=
  match t.phase with
  | .toCheck =>
    if s.inflight.contains key then ({ t with phase := .finished, skipped := true }, s)
    else ({ t with phase := .toRun }, { s with inflight := key :: s.inflight })
  | .toRun => ({ t with phase := .toRelease, ok := outcome }, { s with calls := s.calls + 1 })
  | .toRelease => ({ t with phase := .finished }, { s with inflight := s.inflight.erase key })
  | .finished => (t, s)

/-- Two simultaneous requests for the same (generation, scope) key. -/
structure Sys where
  t0 : TaskSt
  t1 : TaskSt
  pool : PoolSt
deriving DecidableEq, Repr

/-- One interleaving step: the boolean selects which task advances, the
outcome is consumed when the selected task performs its run step. -/
def sysStep (key : Str) (s : Sys) (choice : Bool × Bool) : Sys :=
  if choice.1 then
    let (t, p) := taskStep key choice.2 s.t1 s.pool
    { s with t1 := t, pool := p }
  else
    let (t, p) := taskStep key choice.2 s.t0 s.pool
    { s with t0 := t, pool := p }

/-- Execution of an arbitrary event-loop interleaving of the two tasks. -/
def sysRun (key : Str) (sched : List (Bool × Bool)) (s : Sys) : Sys :=
  sched.foldl (sysStep key) s

/-- Initial state: both tasks about to run their in-flight check, no key
in flight, no invocation yet. -/
def initSys : Sys :=
  ⟨⟨.toCheck, false, true⟩, ⟨.toCheck, false, true⟩, ⟨[], 0⟩⟩

/-! Basic table lemmas. -/

theorem tget_tput_same {α : Type} (t : Table α) (k : Str) (v : α) :
    tget (tput t k v) k = some v := by
  simp [tget, tput, List.find?_cons_of_pos]

theorem tget_tput_other {α : Type} (t : Table α) (k k2 : Str) (v : α)
    (h : k2 ≠ k) : tget (tput t k v) k2 = tget t k2 := by
  simp only [tget, tput]
  rw [List.find?_cons_of_neg]
  simp only [decide_eq_true_eq]
  exact fun hh => h hh.symm

theorem getProgressVersion_bump (db : DBState) (now : Nat) :
    getProgressVersion (bumpProgressVersion db now).1 = getProgressVersion db + 1 := by
  show getProgressVersion { db with
    meta := tput db.meta progressVersionKey ⟨getProgressVersion db + 1, now⟩ } = _
  unfold getProgressVersion
  rw [tget_tput_same]

theorem getProgressVersion_writeCompanyCache (db : DBState) (m c : Str)
    (stats : CachedCompanyStats) (now : Nat) :
    getProgressVersion (writeCompanyCache db m c stats now) = getProgressVersion db := rfl

/-! Claim C1.  The spec says every ledger mutation bumps the version counter
by exactly one inside the same atomic unit, so a sequence of N committed
mutations moves the counter by N.  In the source, bumpProgressVersion exists
in src/storage/meta.ts but is never invoked: toggleCompleted, setMinutes and
setNotes write only the progress table.  The counter therefore stays
constant across every mutation sequence. -/

theorem applyMutation_meta (db : DBState) (mu : Mutation) :
    (applyMutation db mu).meta = db.meta := by
  cases mu with
  | toggle link d now =>
    simp only [applyMutation, toggleCompleted]
    cases tget db.progress link <;> rfl
  | minutes link m d now =>
    simp only [applyMutation, setMinutes]
    cases tget db.progress link <;> rfl
  | notes link n d now =>
    simp only [applyMutation, setNotes]
    cases tget db.progress link <;> rfl

/-- Claim C1: the claim states that, for any sequence of N committed ledger
mutations, the version counter afterwards equals its value before plus N.
The code refutes this: no mutation path calls bumpProgressVersion, so the
counter after any mutation sequence equals its value before plus zero,
while bumpProgressVersion itself (the machinery the mutations were meant to
invoke) does increment by exactly one when called. -/
theorem c1_mutations_never_bump_version :
    (∀ (db : DBState) (ms : List Mutation),
      getProgressVersion (applyMutations db ms) = getProgressVersion db) ∧
    (∀ (db : DBState) (now : Nat),
      (bumpProgressVersion db now).2 = getProgressVersion db + 1 ∧
      getProgressVersion (bumpProgressVersion db now).1 = getProgressVersion db + 1) := by
  constructor
  · intro db ms
    induction ms generalizing db with
    | nil => rfl
    | cons mu rest ih =>
      have hstep : applyMutations db (mu :: rest) = applyMutations (applyMutation db mu) rest := rfl
      rw [hstep, ih (applyMutation db mu)]
      unfold getProgressVersion
      rw [applyMutation_meta]
  · intro db now
    exact ⟨rfl, getProgressVersion_bump db now⟩

/-! Claim C8: behavior of toggleCompleted on absent and present records. -/

/-- Claim C8: toggleCompleted creates a record with completed true, null
minutes and notes and the fallback difficulty when none exists; otherwise it
negates the completed flag and keeps minutes, notes and difficulty; in both
cases updatedAt becomes the mutation time. -/
theorem c8_toggleCompleted_spec (db : DBState) (link : Str) (d : Difficulty) (now : Nat) :
    (tget db.progress link = none →
      tget (toggleCompleted db link d now).progress link =
        some ⟨link, true, none, none, now, d⟩) ∧
    (∀ ex, tget db.progress link = some ex →
      tget (toggleCompleted db link d now).progress link =
        some { ex with completed := !ex.completed, updatedAt := now }) := by
  constructor
  · intro h
    unfold toggleCompleted
    rw [h]
    exact tget_tput_same ..
  · intro ex h
    unfold toggleCompleted
    rw [h]
    exact tget_tput_same ..

/-- Witness for claim C8 at concrete inputs: a toggle on an empty ledger
creates the record, and a toggle on a ledger holding an uncompleted record
negates only the flag. -/
theorem c8_witness :
    tget (toggleCompleted ⟨[], [], [], []⟩ ['a'] .EASY 7).progress ['a'] =
      some ⟨['a'], true, none, none, 7, .EASY⟩ ∧
    tget (toggleCompleted ⟨[(['a'], ⟨['a'], false, some 3, none, 1, .HARD⟩)], [], [], []⟩
        ['a'] .EASY 9).progress ['a'] =
      some ⟨['a'], true, some 3, none, 9, .HARD⟩ :=
  ⟨(c8_toggleCompleted_spec ⟨[], [], [], []⟩ ['a'] .EASY 7).1 (by decide),
   (c8_toggleCompleted_spec ⟨[(['a'], ⟨['a'], false, some 3, none, 1, .HARD⟩)], [], [], []⟩
      ['a'] .EASY 9).2 ⟨['a'], false, some 3, none, 1, .HARD⟩ (by decide)⟩

/-! Claim C2: validated cache reads. -/

/-- Claim C2: for every scope key, a cache read returns null when no entry
is stored or when the stored entry carries a version other than the current
counter, returns the stored aggregate exactly when the versions agree, and
a non-null result always comes from an entry stamped with the current
version; consequently an entry written at the current version and then
outdated by one bump reads as null.  Both granularities of the cache family
(whole company and single list) satisfy the contract. -/
theorem c2_cache_read_validated (db : DBState) (manifestAt scope : Str) :
    (tget db.companyCache (makeKey manifestAt scope) = none →
      readCompanyCache db manifestAt scope = none) ∧
    (∀ row, tget db.companyCache (makeKey manifestAt scope) = some row →
      row.progressVersion ≠ getProgressVersion db →
      readCompanyCache db manifestAt scope = none) ∧
    (∀ row, tget db.companyCache (makeKey manifestAt scope) = some row →
      row.progressVersion = getProgressVersion db →
      readCompanyCache db manifestAt scope = some (rowToStats row)) ∧
    (∀ r, readCompanyCache db manifestAt scope = some r →
      ∃ row, tget db.companyCache (makeKey manifestAt scope) = some row ∧
        row.progressVersion = getProgressVersion db ∧ r = rowToStats row) ∧
    (tget db.listStatsCache (makeKey manifestAt scope) = none →
      readListStatsCache db manifestAt scope = none) ∧
    (∀ row, tget db.listStatsCache (makeKey manifestAt scope) = some row →
      row.progressVersion ≠ getProgressVersion db →
      readListStatsCache db manifestAt scope = none) ∧
    (∀ r, readListStatsCache db manifestAt scope = some r →
      ∃ row, tget db.listStatsCache (makeKey manifestAt scope) = some row ∧
        row.progressVersion = getProgressVersion db) ∧
    (∀ stats now now2,
      readCompanyCache
        (bumpProgressVersion (writeCompanyCache db manifestAt scope stats now) now2).1
        manifestAt scope = none) := by
  refine ⟨?_, ?_, ?_, ?_, ?_, ?_, ?_, ?_⟩
  · intro h
    unfold readCompanyCache
    rw [h]
  · intro row h hv
    unfold readCompanyCache
    rw [h]
    simp [hv]
  · intro row h hv
    unfold readCompanyCache
    rw [h]
    simp [hv]
  · intro r h
    unfold readCompanyCache at h
    rcases hrow : tget db.companyCache (makeKey manifestAt scope) with _ | row
    · rw [hrow] at h
      exact absurd h (by simp)
    · rw [hrow] at h
      dsimp only at h
      by_cases hv : row.progressVersion = getProgressVersion db
      · refine ⟨row, rfl, hv, ?_⟩
        rw [if_pos hv] at h
        exact (Option.some_inj.mp h).symm
      · rw [if_neg hv] at h
        exact absurd h (by simp)
  · intro h
    unfold readListStatsCache
    rw [h]
  · intro row h hv
    unfold readListStatsCache
    rw [h]
    simp [hv]
  · intro r h
    unfold readListStatsCache at h
    rcases hrow : tget db.listStatsCache (makeKey manifestAt scope) with _ | row
    · rw [hrow] at h
      exact absurd h (by simp)
    · rw [hrow] at h
      dsimp only at h
      by_cases hv : row.progressVersion = getProgressVersion db
      · exact ⟨row, rfl, hv⟩
      · rw [if_neg hv] at h
        exact absurd h (by simp)
  · intro stats now now2
    have hmeta : getProgressVersion
        (bumpProgressVersion (writeCompanyCache db manifestAt scope stats now) now2).1 =
        getProgressVersion db + 1 := by
      rw [getProgressVersion_bump, getProgressVersion_writeCompanyCache]
    have hrow : tget
        (bumpProgressVersion (writeCompanyCache db manifestAt scope stats now) now2).1.companyCache
        (makeKey manifestAt scope) = some
          { manifestAt := manifestAt
            company := scope
            totalEasy := stats.easy.total
            totalMedium := stats.medium.total
            totalHard := stats.hard.total
            totalAll := stats.total.total
            solvedEasy := stats.easy.solved
            solvedMedium := stats.medium.solved
            solvedHard := stats.hard.solved
            solvedAll := stats.total.solved
            progressVersion := getProgressVersion db
            computedAt := now } := by
      show tget (writeCompanyCache db manifestAt scope stats now).companyCache
        (makeKey manifestAt scope) = _
      unfold writeCompanyCache
      exact tget_tput_same ..
    unfold readCompanyCache
    rw [hrow, hmeta]
    have hne : getProgressVersion db ≠ getProgressVersion db + 1 := by omega
    dsimp only
    rw [if_neg hne]

/-- Witness for claim C2 at concrete inputs: the empty cache reads null, a
fresh entry at the current version reads back, and a written entry becomes
null after one version bump. -/
theorem c2_witness :
    readCompanyCache ⟨[], [], [], []⟩ ['m'] ['c'] = none ∧
    readCompanyCache
      ⟨[], [], [(makeKey ['m'] ['c'],
        ⟨['m'], ['c'], 1, 0, 0, 1, 0, 0, 0, 0, 0, 5⟩)], []⟩ ['m'] ['c'] =
      some (rowToStats ⟨['m'], ['c'], 1, 0, 0, 1, 0, 0, 0, 0, 0, 5⟩) ∧
    readCompanyCache
      (bumpProgressVersion
        (writeCompanyCache ⟨[], [], [], []⟩ ['m'] ['c'] emptyCompanyStats 3) 4).1
      ['m'] ['c'] = none :=
  ⟨(c2_cache_read_validated ⟨[], [], [], []⟩ ['m'] ['c']).1 (by decide),
   (c2_cache_read_validated
      ⟨[], [], [(makeKey ['m'] ['c'], ⟨['m'], ['c'], 1, 0, 0, 1, 0, 0, 0, 0, 0, 5⟩)], []⟩
      ['m'] ['c']).2.2.1 ⟨['m'], ['c'], 1, 0, 0, 1, 0, 0, 0, 0, 0, 5⟩ (by decide) (by decide),
   (c2_cache_read_validated ⟨[], [], [], []⟩ ['m'] ['c']).2.2.2.2.2.2.2
     emptyCompanyStats 3 4⟩

/-! Claims C9 and C10: totality and agreement of the two normalizers. -/

/-- Claim C9: the normalizer is total (it is a Lean function, so it returns
a string on every input, including every string the URL parser rejects) and
on parse failure it returns exactly the best-effort cleanup: the trimmed
input cut at the first hash, cut at the first question mark, re-trimmed,
with one trailing slash removed. -/
theorem c9_normalize_total_fallback (s : Str)
    (h : urlParse (jsTrim s) = none) :
    normalizeLink s =
      stripSlash (jsTrim (((jsTrim s).takeWhile (fun c => c ≠ '#')).takeWhile
        (fun c => c ≠ '?'))) := by
  unfold normalizeLink
  rw [h]
  rfl

/-- Witness for claim C9 at a concrete unparseable input. -/
theorem c9_witness :
    normalizeLink [' ', 'x', ' ', 'y', '?', 'a', '#', 'b', '/'] =
      stripSlash (jsTrim (((jsTrim [' ', 'x', ' ', 'y', '?', 'a', '#', 'b', '/']).takeWhile
        (fun c => c ≠ '#')).takeWhile (fun c => c ≠ '?'))) :=
  c9_normalize_total_fallback [' ', 'x', ' ', 'y', '?', 'a', '#', 'b', '/'] (by decide)

/-- Claim C10: the browser-extension normalizeProblemLink and the main app
normalizeLink compute the same canonical key on every input, so progress
written by either side agrees on item identity.  Both sources carry the
same algorithm; the equality holds over the shared URL model. -/
theorem c10_normalizers_agree (s : Str) :
    normalizeProblemLink s = normalizeLink s := by
  unfold normalizeProblemLink normalizeLink fallbackCleanup
  cases urlParse (jsTrim s) <;> rfl

/-! Claim C3: failure isolation across the sources of one scope. -/

/-- Merge of a list of already-fetched row lists, the all-success path of
the aggregation. -/
def mergeAll (rowLists : List (List CsvRowRaw)) : LinkMap :=
  rowLists.foldl (fun m rows => mergeRows (parseItems rows) m) []

theorem aggregateSources_error_absorb (sources : List SourceResult) :
    sources.foldl
      (fun acc src =>
        match acc, src with
        | .error e, _ => Except.error e
        | .ok _, .error e => Except.error e
        | .ok m, .ok rows => Except.ok (mergeRows (parseItems rows) m))
      (Except.error ()) = Except.error () := by
  induction sources with
  | nil => rfl
  | cons s rest ih => exact ih

theorem aggregateSources_ok (rowLists : List (List CsvRowRaw)) :
    aggregateSources (rowLists.map Except.ok) = Except.ok (mergeAll rowLists) := by
  unfold aggregateSources mergeAll
  generalize ([] : LinkMap) = m
  induction rowLists generalizing m with
  | nil => rfl
  | cons rows rest ih => exact ih (mergeRows (parseItems rows) m)

/-- Concrete valid CSV row used in counterexamples and witnesses. -/
def cRow : CsvRowRaw := ⟨some ['t'], some ['x'], some ['E', 'A', 'S', 'Y']⟩

/-- Counterexample to claim C3 as stated: a scope with one healthy source
and one source whose fetch rejects produces no aggregate at all — the
whole computation rejects — whereas the same scope without the failing
source does produce an aggregate.  The claim requires the failing source to
contribute zero items while the sibling still yields an aggregate. -/
theorem c3_counterexample :
    getCompanyStatsCompute [Except.ok [cRow], Except.error ()] [] = Except.error () ∧
    getCompanyStatsCompute [Except.ok [cRow]] [] =
      Except.ok ⟨⟨0, 1⟩, ⟨0, 0⟩, ⟨0, 0⟩, ⟨0, 1⟩⟩ := by
  constructor
  · rfl
  · rfl

/-- Claim C3, amended: a parse failure of one row (the only parse failures
that exist: malformed rows, which validation drops) does not abort the
siblings — the dropped row contributes zero items and the remaining rows
still aggregate; but a fetch failure of any source rejects the entire scope
computation (withConcurrency rejects as soon as a worker throws and
getCompanyStats does not catch it), so no aggregate is produced; when every
source fetch succeeds the aggregate is produced from all sources. -/
theorem c3_amended_failure_semantics :
    (∀ (pre post : List CsvRowRaw) (r : CsvRowRaw), validateRow r = none →
      parseItems (pre ++ r :: post) = parseItems (pre ++ post)) ∧
    (∀ (sources : List SourceResult) (progress : Table ProblemProgress),
      Except.error () ∈ sources →
      getCompanyStatsCompute sources progress = Except.error ()) ∧
    (∀ (rowLists : List (List CsvRowRaw)) (progress : Table ProblemProgress),
      getCompanyStatsCompute (rowLists.map Except.ok) progress =
        Except.ok (computeStats (mergeAll rowLists) progress)) := by
  refine ⟨?_, ?_, ?_⟩
  · intro pre post r h
    unfold parseItems
    rw [List.filterMap_append, List.filterMap_append, List.filterMap_cons_none]
    exact h
  · intro sources progress hmem
    unfold getCompanyStatsCompute
    suffices hagg : aggregateSources sources = Except.error () by rw [hagg]; rfl
    unfold aggregateSources
    generalize hacc : (Except.ok [] : Except Unit LinkMap) = acc
    clear hacc
    induction sources generalizing acc with
    | nil => exact absurd hmem (List.not_mem_nil _)
    | cons s rest ih =>
      rcases List.mem_cons.mp hmem with hs | hs
      · subst hs
        cases acc with
        | error e => exact aggregateSources_error_absorb rest
        | ok m => exact aggregateSources_error_absorb rest
      · exact ih hs _
  · intro rowLists progress
    unfold getCompanyStatsCompute
    rw [aggregateSources_ok]
    rfl

/-- Witness for claim C3 amended, at concrete inputs: dropping a malformed
row leaves the sibling row aggregated, a failing source rejects the scope,
and an all-healthy scope aggregates. -/
theorem c3_witness :
    parseItems [cRow, ⟨none, some ['y'], some ['E', 'A', 'S', 'Y']⟩] = parseItems [cRow] ∧
    getCompanyStatsCompute [Except.error (), Except.ok [cRow]] [] = Except.error () ∧
    getCompanyStatsCompute [Except.ok [cRow]] [] =
      Except.ok (computeStats (mergeAll [[cRow]]) []) :=
  ⟨by
    have h := c3_amended_failure_semantics.1 [cRow] []
      ⟨none, some ['y'], some ['E', 'A', 'S', 'Y']⟩ (by decide)
    simpa using h,
   c3_amended_failure_semantics.2.1 [Except.error (), Except.ok [cRow]] []
     (by simp),
   c3_amended_failure_semantics.2.2 [[cRow]] []⟩

/-! Claim C7: difficulty bucketing comes from the source data. -/

/-- Replacement of the difficulty snapshot of every ledger row according to
an arbitrary reassignment; used to show the computed stats never read that
field. -/
def restampDifficulty (g : Str → Difficulty) (P : Table ProblemProgress) :
    Table ProblemProgress :=
  P.map (fun kv => (kv.1, { kv.2 with difficulty := g kv.2.link }))

theorem tget_restampDifficulty (g : Str → Difficulty) (P : Table ProblemProgress) (l : Str) :
    tget (restampDifficulty g P) l =
      (tget P l).map (fun r => { r with difficulty := g r.link }) := by
  induction P with
  | nil => rfl
  | cons kv rest ih =>
    by_cases hk : kv.1 = l
    · simp [tget, restampDifficulty, List.find?_cons_of_pos, hk]
    · have h1 : tget (restampDifficulty g (kv :: rest)) l =
          tget (restampDifficulty g rest) l := by
        simp only [restampDifficulty, List.map_cons, tget]
        rw [List.find?_cons_of_neg]
        simpa using hk
      have h2 : tget (kv :: rest) l = tget rest l := by
        simp only [tget]
        rw [List.find?_cons_of_neg]
        simpa using hk
      rw [h1, h2, ih]

theorem solvedRowsOf_restamp (m : LinkMap) (P : Table ProblemProgress)
    (g : Str → Difficulty) :
    solvedRowsOf m (restampDifficulty g P) =
      (solvedRowsOf m P).map (fun r => { r with difficulty := g r.link }) := by
  unfold solvedRowsOf
  have h1 : (fun l => tget (restampDifficulty g P) l) =
      fun l => (tget P l).map (fun r => { r with difficulty := g r.link }) :=
    funext (tget_restampDifficulty g P)
  rw [h1, ← List.map_filterMap, List.filter_map]
  rfl

theorem c7_helper_filter_length {α β : Type} (f : α → β) (p : β → Bool) (q : α → Bool)
    (l : List α) (h : ∀ a, p (f a) = q a) :
    ((l.map f).filter p).length = (l.filter q).length := by
  rw [List.filter_map]
  have : (p ∘ f) = q := funext h
  rw [this, List.length_map]

/-- Claim C7: difficulty buckets come from the scope source data merged
first-write-wins, never from the ledger snapshot.  First part: inc keeps
the earlier difficulty for an identity already in the accumulator and
records the tag of the first occurrence otherwise.  Second part: rewriting
the difficulty snapshot of every ledger record arbitrarily leaves the
computed aggregate unchanged, so no bucket (total or solved) ever depends
on the ProgressRecord difficulty. -/
theorem c7_difficulty_from_source :
    (∀ (m : LinkMap) (l : Str) (d d0 : Difficulty), lmFind m l = some d0 →
      inc m l d = m) ∧
    (∀ (m : LinkMap) (l : Str) (d : Difficulty), lmFind m l = none →
      lmFind (inc m l d) l = some d) ∧
    (∀ (m : LinkMap) (P : Table ProblemProgress) (g : Str → Difficulty),
      computeStats m (restampDifficulty g P) = computeStats m P) := by
  refine ⟨?_, ?_, ?_⟩
  · intro m l d d0 h
    unfold inc
    rw [h]
    rfl
  · intro m l d h
    unfold inc
    rw [h]
    simp only [Option.isSome_none, Bool.false_eq_true, if_false]
    unfold lmFind at h ⊢
    rcases hfind : List.find? (fun p => p.1 = l) m with _ | entry
    · rw [List.find?_append, hfind]
      simp [List.find?]
    · rw [hfind] at h
      exact absurd h (by simp)
  · intro m P g
    unfold computeStats
    by_cases hlen : (m.map (fun p => p.1)).length = 0
    · rw [if_pos hlen, if_pos hlen]
    · rw [if_neg hlen, if_neg hlen]
      have hrows : ∀ d, solvedByDiffOf m (restampDifficulty g P) d =
          solvedByDiffOf m P d := by
        intro d
        unfold solvedByDiffOf
        rw [solvedRowsOf_restamp]
        exact c7_helper_filter_length _ _ _ _ (fun a => rfl)
      have hlenrows : (solvedRowsOf m (restampDifficulty g P)).length =
          (solvedRowsOf m P).length := by
        rw [solvedRowsOf_restamp, List.length_map]
      rw [hrows, hrows, hrows, hlenrows]

/-- Witness for claim C7 at concrete inputs: a duplicate identity keeps the
first difficulty, a fresh identity records its tag, and restamping the
ledger difficulty does not change the aggregate. -/
theorem c7_witness :
    inc [(['a'], Difficulty.EASY)] ['a'] .HARD = [(['a'], Difficulty.EASY)] ∧
    lmFind (inc [(['a'], Difficulty.EASY)] ['b'] .HARD) ['b'] = some .HARD ∧
    computeStats [(['a'], Difficulty.EASY)]
        (restampDifficulty (fun _ => .HARD)
          [(['a'], ⟨['a'], true, none, none, 0, .MEDIUM⟩)]) =
      computeStats [(['a'], Difficulty.EASY)]
        [(['a'], ⟨['a'], true, none, none, 0, .MEDIUM⟩)] :=
  ⟨c7_difficulty_from_source.1 [(['a'], Difficulty.EASY)] ['a'] .HARD .EASY (by decide),
   c7_difficulty_from_source.2.1 [(['a'], Difficulty.EASY)] ['b'] .HARD (by decide),
   c7_difficulty_from_source.2.2 [(['a'], Difficulty.EASY)]
     [(['a'], ⟨['a'], true, none, none, 0, .MEDIUM⟩)] (fun _ => .HARD)⟩

/-! Claim C6: totals count unique identities. -/

instance : Inhabited Difficulty := ⟨.EASY⟩

theorem lmFind_isSome_iff (m : LinkMap) (l : Str) :
    (lmFind m l).isSome = true ↔ l ∈ m.map (fun p => p.1) := by
  induction m with
  | nil => simp [lmFind]
  | cons kv rest ih =>
    by_cases hk : kv.1 = l
    · simp [lmFind, List.find?_cons_of_pos, hk]
    · have h1 : lmFind (kv :: rest) l = lmFind rest l := by
        simp only [lmFind]
        rw [List.find?_cons_of_neg]
        simpa using hk
      rw [List.map_cons]
      simp only [List.mem_cons]
      rw [h1]
      constructor
      · intro h
        exact Or.inr (ih.mp h)
      · rintro (h | h)
        · exact absurd h.symm hk
        · exact ih.mpr h

theorem inc_keys_toFinset (m : LinkMap) (l : Str) (d : Difficulty) :
    ((inc m l d).map (fun p => p.1)).toFinset =
      insert l ((m.map (fun p => p.1)).toFinset) := by
  unfold inc
  by_cases h : (lmFind m l).isSome = true
  · rw [if_pos h]
    have hmem : l ∈ m.map (fun p => p.1) := (lmFind_isSome_iff m l).mp h
    rw [Finset.insert_eq_self.mpr (by simpa using hmem)]
  · rw [if_neg h, List.map_append]
    ext x
    simp [or_comm]

theorem inc_keys_nodup (m : LinkMap) (l : Str) (d : Difficulty)
    (h : (m.map (fun p => p.1)).Nodup) : ((inc m l d).map (fun p => p.1)).Nodup := by
  unfold inc
  by_cases hs : (lmFind m l).isSome = true
  · rw [if_pos hs]
    exact h
  · rw [if_neg hs, List.map_append]
    refine List.Nodup.append h (List.nodup_singleton l) ?_
    intro x hx hmem
    rw [List.map_singleton, List.mem_singleton] at hmem
    subst hmem
    exact hs ((lmFind_isSome_iff m x).mpr hx)

theorem mergeRows_keys_toFinset (rows : List ProblemRow) (m : LinkMap) :
    ((mergeRows rows m).map (fun p => p.1)).toFinset =
      ((m.map (fun p => p.1)).toFinset) ∪ (rows.map ProblemRow.link).toFinset := by
  induction rows generalizing m with
  | nil => simp [mergeRows]
  | cons r rest ih =>
    have hstep : mergeRows (r :: rest) m = mergeRows rest (inc m r.link r.difficulty) := rfl
    rw [hstep, ih, inc_keys_toFinset]
    ext x
    simp

theorem mergeRows_keys_nodup (rows : List ProblemRow) (m : LinkMap)
    (h : (m.map (fun p => p.1)).Nodup) :
    ((mergeRows rows m).map (fun p => p.1)).Nodup := by
  induction rows generalizing m with
  | nil => exact h
  | cons r rest ih =>
    have hstep : mergeRows (r :: rest) m = mergeRows rest (inc m r.link r.difficulty) := rfl
    rw [hstep]
    exact ih _ (inc_keys_nodup m r.link r.difficulty h)

theorem mergeAll_from_keys_toFinset (rls : List (List CsvRowRaw)) (m : LinkMap) :
    ((rls.foldl (fun acc rows => mergeRows (parseItems rows) acc) m).map
      (fun p => p.1)).toFinset =
    ((m.map (fun p => p.1)).toFinset) ∪
      (((rls.map parseItems).flatten).map ProblemRow.link).toFinset := by
  induction rls generalizing m with
  | nil => simp
  | cons rows rest ih =>
    have hstep : (rows :: rest).foldl (fun acc rows => mergeRows (parseItems rows) acc) m =
        rest.foldl (fun acc rows => mergeRows (parseItems rows) acc)
          (mergeRows (parseItems rows) m) := rfl
    rw [hstep, ih, mergeRows_keys_toFinset]
    ext x
    simp

theorem mergeAll_keys_nodup (rls : List (List CsvRowRaw)) :
    ((mergeAll rls).map (fun p => p.1)).Nodup := by
  unfold mergeAll
  have haux : ∀ (l : List (List CsvRowRaw)) (m : LinkMap),
      (m.map (fun p => p.1)).Nodup →
      ((l.foldl (fun acc rows => mergeRows (parseItems rows) acc) m).map
        (fun p => p.1)).Nodup := by
    intro l
    induction l with
    | nil => exact fun m h => h
    | cons rows rest ih =>
      intro m h
      exact ih _ (mergeRows_keys_nodup (parseItems rows) m h)
  exact haux rls [] (by simp)

theorem computeStats_total (m : LinkMap) (P : Table ProblemProgress) :
    (computeStats m P).total.total = (m.map (fun p => p.1)).length := by
  unfold computeStats
  by_cases h : (m.map (fun p => p.1)).length = 0
  · rw [if_pos h]
    exact h.symm
  · rw [if_neg h]

/-- Claim C6: when all sources of a scope fetch successfully, the overall
total of the computed aggregate equals the number of distinct normalized
links across all the rows of all the sources, counting an identity present
in several source lists exactly once. -/
theorem c6_totals_dedup (rowLists : List (List CsvRowRaw)) (P : Table ProblemProgress) :
    (getCompanyStatsCompute (rowLists.map Except.ok) P).map (fun s => s.total.total) =
      Except.ok ((((rowLists.map parseItems).flatten).map ProblemRow.link).toFinset.card) := by
  unfold getCompanyStatsCompute
  rw [aggregateSources_ok]
  show Except.ok ((computeStats (mergeAll rowLists) P).total.total) = _
  congr 1
  rw [computeStats_total]
  have hnodup := mergeAll_keys_nodup rowLists
  rw [← List.toFinset_card_of_nodup hnodup]
  have hkeys := mergeAll_from_keys_toFinset rowLists []
  unfold mergeAll
  rw [hkeys]
  simp

/-! Claim C4: at most one concurrent computation per scope key. -/

theorem taskStep_finished (key : Str) (o : Bool) (t : TaskSt) (pool : PoolSt)
    (h : t.phase = .finished) : taskStep key o t pool = (t, pool) := by
  unfold taskStep
  rw [h]

/-- Invariant tying one active task and one skipped task to the shared
pool: the skipped task saw the in-flight marker and terminated without
calling the aggregator, while the active task holds the marker until its
finally block releases it, having made exactly one call once past the run
step. -/
def Good (key : Str) (active skipped : TaskSt) (pool : PoolSt) : Prop :=
  skipped.phase = .finished ∧ skipped.skipped = true ∧ active.skipped = false ∧
  ((active.phase = .toRun ∧ pool.inflight = [key] ∧ pool.calls = 0) ∨
   (active.phase = .toRelease ∧ pool.inflight = [key] ∧ pool.calls = 1) ∨
   (active.phase = .finished ∧ pool.inflight = [] ∧ pool.calls = 1))

/-- Invariant of the two-task system, symmetric in which task won the
check. -/
def Inv (key : Str) (s : Sys) : Prop :=
  Good key s.t0 s.t1 s.pool ∨ Good key s.t1 s.t0 s.pool

theorem good_step (key : Str) (o : Bool) (active skipped : TaskSt) (pool : PoolSt)
    (h : Good key active skipped pool) :
    Good key (taskStep key o active pool).1 skipped (taskStep key o active pool).2 := by
  obtain ⟨hsf, hss, has, hcase⟩ := h
  rcases hcase with ⟨hp, hi, hc⟩ | ⟨hp, hi, hc⟩ | ⟨hp, hi, hc⟩
  · unfold taskStep
    rw [hp]
    exact ⟨hsf, hss, has, Or.inr (Or.inl ⟨rfl, hi, by rw [hc]⟩)⟩
  · unfold taskStep
    rw [hp]
    refine ⟨hsf, hss, has, Or.inr (Or.inr ⟨rfl, ?_, hc⟩)⟩
    rw [hi]
    exact List.erase_cons_head key []
  · rw [taskStep_finished key o active pool hp]
    exact ⟨hsf, hss, has, Or.inr (Or.inr ⟨hp, hi, hc⟩)⟩

theorem inv_step (key : Str) (s : Sys) (c : Bool × Bool) (h : Inv key s) :
    Inv key (sysStep key s c) := by
  rcases h with hg | hg
  · rcases hc : c.1 with _ | _
    · unfold sysStep
      rw [hc]
      simp only [Bool.false_eq_true, if_false]
      exact Or.inl (good_step key c.2 s.t0 s.t1 s.pool hg)
    · unfold sysStep
      rw [hc]
      simp only [if_true]
      rw [taskStep_finished key c.2 s.t1 s.pool hg.1]
      exact Or.inl hg
  · rcases hc : c.1 with _ | _
    · unfold sysStep
      rw [hc]
      simp only [Bool.false_eq_true, if_false]
      rw [taskStep_finished key c.2 s.t0 s.pool hg.1]
      exact Or.inr hg
    · unfold sysStep
      rw [hc]
      simp only [if_true]
      exact Or.inr (good_step key c.2 s.t1 s.t0 s.pool hg)

theorem inv_run (key : Str) (l : List (Bool × Bool)) (s : Sys) (h : Inv key s) :
    Inv key (sysRun key l s) := by
  induction l generalizing s with
  | nil => exact h
  | cons c rest ih => exact ih (sysStep key s c) (inv_step key s c h)

theorem inv_after_two (key : Str) (b o1 o2 : Bool) :
    Inv key (sysStep key (sysStep key initSys (b, o1)) (!b, o2)) := by
  cases b with
  | false =>
    refine Or.inl ?_
    unfold sysStep initSys taskStep
    simp [Good, List.contains]
  | true =>
    refine Or.inr ?_
    unfold sysStep initSys taskStep
    simp [Good, List.contains]

/-- Claim C4: two simultaneous requests to compute the same
(generation, scope) key, under every event-loop interleaving that starts
with both in-flight checks (which is how the JS event loop schedules two
simultaneous requests, because the check-and-mark section has no await in
it), lead to exactly one getCompanyStats invocation; the loser observes the
marker and is skipped; once both tasks finish the marker set is empty again
even when the winning computation threw (the outcome booleans of the
schedule are arbitrary, and the release step is the finally block). -/
theorem c4_single_flight (key : Str) (b o1 o2 : Bool) (rest : List (Bool × Bool))
    (hfin0 : (sysRun key ((b, o1) :: (!b, o2) :: rest) initSys).t0.phase = .finished)
    (hfin1 : (sysRun key ((b, o1) :: (!b, o2) :: rest) initSys).t1.phase = .finished) :
    (sysRun key ((b, o1) :: (!b, o2) :: rest) initSys).pool.calls = 1 ∧
    (sysRun key ((b, o1) :: (!b, o2) :: rest) initSys).pool.inflight = [] ∧
    ((sysRun key ((b, o1) :: (!b, o2) :: rest) initSys).t0.skipped = true ∧
       (sysRun key ((b, o1) :: (!b, o2) :: rest) initSys).t1.skipped = false ∨
     (sysRun key ((b, o1) :: (!b, o2) :: rest) initSys).t0.skipped = false ∧
       (sysRun key ((b, o1) :: (!b, o2) :: rest) initSys).t1.skipped = true) := by
  have hrun : sysRun key ((b, o1) :: (!b, o2) :: rest) initSys =
      sysRun key rest (sysStep key (sysStep key initSys (b, o1)) (!b, o2)) := rfl
  have hinv : Inv key (sysRun key ((b, o1) :: (!b, o2) :: rest) initSys) := by
    rw [hrun]
    exact inv_run key rest _ (inv_after_two key b o1 o2)
  rcases hinv with ⟨hsf, hss, has, hcase⟩ | ⟨hsf, hss, has, hcase⟩
  · rcases hcase with ⟨hp, _, _⟩ | ⟨hp, _, _⟩ | ⟨hp, hi, hc⟩
    · rw [hfin0] at hp
      exact absurd hp (by simp)
    · rw [hfin0] at hp
      exact absurd hp (by simp)
    · exact ⟨hc, hi, Or.inr ⟨has, hss⟩⟩
  · rcases hcase with ⟨hp, _, _⟩ | ⟨hp, _, _⟩ | ⟨hp, hi, hc⟩
    · rw [hfin1] at hp
      exact absurd hp (by simp)
    · rw [hfin1] at hp
      exact absurd hp (by simp)
    · exact ⟨hc, hi, Or.inl ⟨hss, has⟩⟩

/-- Witness for claim C4 at a concrete schedule: task zero checks and
marks, task one checks and is skipped, task zero runs and its computation
throws, its finally block still releases the marker; exactly one
invocation happened. -/
theorem c4_witness :
    (sysRun ['k'] [(false, true), (true, true), (false, false), (false, true)]
      initSys).pool.calls = 1 ∧
    (sysRun ['k'] [(false, true), (true, true), (false, false), (false, true)]
      initSys).pool.inflight = [] ∧
    ((sysRun ['k'] [(false, true), (true, true), (false, false), (false, true)]
        initSys).t0.skipped = true ∧
       (sysRun ['k'] [(false, true), (true, true), (false, false), (false, true)]
        initSys).t1.skipped = false ∨
     (sysRun ['k'] [(false, true), (true, true), (false, false), (false, true)]
        initSys).t0.skipped = false ∧
       (sysRun ['k'] [(false, true), (true, true), (false, false), (false, true)]
        initSys).t1.skipped = true) :=
  c4_single_flight ['k'] false true true [(false, false), (false, true)]
    (by decide) (by decide)

/-! Claim C5: idempotence of the normalizer.  Supporting lemmas about
prefixes, trimming and the URL model. -/

/-- Initial-segment relation on character lists. -/
def Pre (a b : Str) : Prop := ∃ t, b = a ++ t

theorem pre_refl (a : Str) : Pre a a := ⟨[], by simp⟩

theorem pre_trans {a b c : Str} (h1 : Pre a b) (h2 : Pre b c) : Pre a c := by
  obtain ⟨t1, hb⟩ := h1
  obtain ⟨t2, hc⟩ := h2
  exact ⟨t1 ++ t2, by rw [hc, hb, List.append_assoc]⟩

theorem takeWhile_pre (p : Char → Bool) (l : Str) : Pre (l.takeWhile p) l :=
  ⟨l.dropWhile p, (List.takeWhile_append_dropWhile p l).symm⟩

theorem dropLast_pre (l : Str) : Pre l.dropLast l := by
  rw [List.dropLast_eq_take]
  exact ⟨l.drop (l.length - 1), (List.take_append_drop _ l).symm⟩

theorem stripSlash_pre (l : Str) : Pre (stripSlash l) l := by
  unfold stripSlash
  split
  · exact dropLast_pre l
  · exact pre_refl l

theorem trimR_pre (l : Str) : Pre (trimR l) l := by
  refine ⟨(l.reverse.takeWhile isWS).reverse, ?_⟩
  conv_lhs => rw [← List.reverse_reverse l,
    ← List.takeWhile_append_dropWhile isWS l.reverse]
  rw [List.reverse_append]
  rfl

theorem pre_mem {a b : Str} (h : Pre a b) {x : Char} (hx : x ∈ a) : x ∈ b := by
  obtain ⟨t, rfl⟩ := h
  exact List.mem_append_left t hx

theorem pre_head {a b : Str} (h : Pre a b) {c : Char} (hc : a.head? = some c) :
    b.head? = some c := by
  obtain ⟨t, rfl⟩ := h
  cases a with
  | nil => simp at hc
  | cons x r => simpa using hc

theorem dropWhile_head (p : Char → Bool) (l : Str) (c : Char)
    (h : (l.dropWhile p).head? = some c) : p c = false := by
  induction l with
  | nil => simp [List.dropWhile] at h
  | cons a r ih =>
    rw [List.dropWhile_cons] at h
    by_cases hp : p a = true
    · rw [if_pos hp] at h
      exact ih h
    · rw [if_neg hp] at h
      simp only [List.head?_cons, Option.some_inj] at h
      rw [← h]
      exact Bool.not_eq_true _ |>.mp hp

theorem trimL_of_head (l : Str) (h : ∀ c, l.head? = some c → isWS c = false) :
    trimL l = l := by
  cases l with
  | nil => rfl
  | cons a r =>
    unfold trimL
    rw [List.dropWhile_cons, if_neg]
    rw [h a rfl]
    simp

theorem jsTrim_head (s : Str) (c : Char) (h : (jsTrim s).head? = some c) :
    isWS c = false := by
  unfold jsTrim at h
  have h2 : (trimL s).head? = some c := pre_head (trimR_pre (trimL s)) h
  exact dropWhile_head isWS s c h2

theorem tw_all (p : Char → Bool) (l : Str) (h : ∀ x ∈ l, p x = true) :
    l.takeWhile p = l := by
  induction l with
  | nil => rfl
  | cons a r ih =>
    rw [List.takeWhile_cons, if_pos (h a (List.mem_cons_self a r))]
    rw [ih (fun x hx => h x (List.mem_cons_of_mem a hx))]

theorem tw_app (p : Char → Bool) (a : Str) (y : Char) (b : Str)
    (ha : ∀ x ∈ a, p x = true) (hy : p y = false) :
    (a ++ y :: b).takeWhile p = a := by
  induction a with
  | nil =>
    rw [List.nil_append, List.takeWhile_cons, if_neg]
    rw [hy]
    simp
  | cons x xs ih =>
    rw [List.cons_append, List.takeWhile_cons,
      if_pos (ha x (List.mem_cons_self x xs))]
    rw [ih (fun c hc => ha c (List.mem_cons_of_mem x hc))]

theorem tw_drop (p : Char → Bool) (l : Str) :
    l.drop (l.takeWhile p).length = l.dropWhile p := by
  induction l with
  | nil => rfl
  | cons a r ih =>
    rw [List.takeWhile_cons, List.dropWhile_cons]
    by_cases hp : p a = true
    · rw [if_pos hp, if_pos hp, List.length_cons, List.drop_succ_cons]
      exact ih
    · rw [if_neg hp, if_neg hp, List.length_nil, List.drop_zero]

theorem lastChar_append (x y : Str) (h : y ≠ []) :
    lastChar (x ++ y) = lastChar y := by
  unfold lastChar
  rw [List.getLast?_append]
  cases y with
  | nil => exact absurd rfl h
  | cons a r =>
    have : (a :: r).getLast?.isSome = true := by
      rw [List.getLast?_isSome]
      simp
    rcases hx : (a :: r).getLast? with _ | v
    · rw [hx] at this
      simp at this
    · rfl

theorem lastChar_mem (l : Str) (a : Char) (h : lastChar l = some a) : a ∈ l := by
  induction l with
  | nil => simp [lastChar] at h
  | cons x r ih =>
    cases r with
    | nil =>
      simp [lastChar] at h
      simp [h]
    | cons y t =>
      unfold lastChar at h ih
      rw [List.getLast?_cons_cons] at h
      exact List.mem_cons_of_mem x (ih h)

theorem splitAtColon_mk (a r : Str) (h : ∀ c ∈ a, c ≠ ':') :
    splitAtColon (a ++ ':' :: r) = some (a, r) := by
  induction a with
  | nil => simp [splitAtColon]
  | cons x xs ih =>
    have hx : x ≠ ':' := h x (List.mem_cons_self x xs)
    rw [List.cons_append]
    unfold splitAtColon
    rw [if_neg hx, ih (fun c hc => h c (List.mem_cons_of_mem x hc))]
    rfl

theorem splitAtColon_app {a : Str} (t : Str) :
    ∀ {sc r : Str}, splitAtColon a = some (sc, r) →
    ∃ r2, splitAtColon (a ++ t) = some (sc, r2) := by
  induction a with
  | nil =>
    intro sc r h
    simp [splitAtColon] at h
  | cons x xs ih =>
    intro sc r h
    rw [List.cons_append]
    by_cases hx : x = ':'
    · simp only [splitAtColon, if_pos hx, Option.some_inj] at h ⊢
      injection h with hsc hr
      subst hsc
      exact ⟨xs ++ t, rfl⟩
    · simp only [splitAtColon, if_neg hx] at h ⊢
      rcases hsp : splitAtColon xs with _ | p
      · rw [hsp, Option.map_none'] at h
        exact Option.noConfusion h
      · rw [hsp] at h
        simp at h
        obtain ⟨hsc, hr⟩ := h
        obtain ⟨r2, h2⟩ := ih (show splitAtColon xs = some (p.1, p.2) by rw [hsp])
        refine ⟨r2, ?_⟩
        rw [h2]
        simp [hsc]

theorem schemeOk_no_colon (sc : Str) (h : schemeOk sc = true) :
    ∀ c ∈ sc, c ≠ ':' := by
  cases sc with
  | nil => simp [schemeOk] at h
  | cons a rest =>
    unfold schemeOk at h
    rw [Bool.and_eq_true] at h
    intro c hc hcol
    subst hcol
    rcases List.mem_cons.mp hc with h1 | h1
    · rw [← h1] at h
      exact absurd h.1 (by decide)
    · have := List.all_eq_true.mp h.2 _ h1
      exact absurd this (by decide)

theorem urlParse_pre_none {a b : Str} (hpre : Pre a b) (hb : urlParse b = none) :
    urlParse a = none := by
  rcases hpa : urlParse a with _ | u
  · rfl
  · exfalso
    unfold urlParse at hpa
    rcases hsp : splitAtColon a with _ | ⟨sc, r⟩ <;> rw [hsp] at hpa
    · simp at hpa
    · dsimp only at hpa
      by_cases hok : schemeOk sc = true
      · obtain ⟨t, rfl⟩ := hpre
        obtain ⟨r2, hsp2⟩ := splitAtColon_app t hsp
        unfold urlParse at hb
        rw [hsp2] at hb
        dsimp only at hb
        rw [if_pos hok] at hb
        split at hb
        · split at hb <;> simp at hb
        · simp at hb
      · rw [if_neg hok] at hpa
        simp at hpa

/-- Authority part of a serialized URL. -/
def authPartOf : Option Str → Str
  | some a => '/' :: '/' :: a
  | none => []

/-- Validity of a stripped parsed URL: the shape invariants every record
produced by urlParse satisfies once query and fragment are cleared. -/
structure UValidS (u : Url) : Prop where
  sOk : schemeOk u.scheme = true
  aChars : ∀ a, u.authority = some a → ∀ c ∈ a, notAuthEnd c = true
  pChars : ∀ c ∈ u.path, notPathEnd c = true
  pStart : u.authority.isSome = true → u.path = [] ∨ u.path.head? = some '/'
  noSS : u.authority = none → ∀ r, u.path ≠ '/' :: '/' :: r
  qNone : u.query = none
  fNone : u.frag = none

theorem notAuthEnd_false {c : Char} (h : notAuthEnd c = false) :
    c = '/' ∨ c = '?' ∨ c = '#' := by
  unfold notAuthEnd at h
  simp at h
  tauto

theorem notPathEnd_false {c : Char} (h : notPathEnd c = false) :
    c = '?' ∨ c = '#' := by
  unfold notPathEnd at h
  simp at h
  tauto

theorem parsePQF_strip (sc : Str) (auth : Option Str) (s : Str) :
    { parsePQF sc auth s with query := none, frag := none } =
    (⟨sc, auth, s.takeWhile notPathEnd, none, none⟩ : Url) := rfl

theorem parsePQF_clean (sc : Str) (auth : Option Str) (path : Str)
    (hp : ∀ c ∈ path, notPathEnd c = true) :
    parsePQF sc auth path = ⟨sc, auth, path, none, none⟩ := by
  unfold parsePQF
  rw [tw_all _ _ hp, List.drop_length]
  rfl

theorem valid_none (sc s : Str) (hok : schemeOk sc = true)
    (hs : ∀ r2, s ≠ '/' :: '/' :: r2) :
    UValidS ⟨sc, none, s.takeWhile notPathEnd, none, none⟩ := by
  refine ⟨hok, ?_, ?_, ?_, ?_, rfl, rfl⟩
  · intro a ha
    exact absurd ha (by simp)
  · intro c hc
    exact List.mem_takeWhile_imp hc
  · intro h
    simp at h
  · intro _ r2 hpath
    obtain ⟨t, ht⟩ := takeWhile_pre notPathEnd s
    have hpath2 : s.takeWhile notPathEnd = '/' :: '/' :: r2 := hpath
    rw [hpath2] at ht
    exact hs (r2 ++ t) (by rw [ht]; simp)

theorem valid_some (sc r : Str) (hok : schemeOk sc = true) :
    UValidS ⟨sc, some (r.takeWhile notAuthEnd),
      (r.drop (r.takeWhile notAuthEnd).length).takeWhile notPathEnd, none, none⟩ := by
  refine ⟨hok, ?_, ?_, ?_, ?_, rfl, rfl⟩
  · intro a ha c hc
    rw [Option.some_inj] at ha
    rw [← ha] at hc
    exact List.mem_takeWhile_imp hc
  · intro c hc
    exact List.mem_takeWhile_imp hc
  · intro _
    rw [tw_drop]
    rcases hd : r.dropWhile notAuthEnd with _ | ⟨c, s2⟩
    · left
      rfl
    · have hc : notAuthEnd c = false :=
        dropWhile_head notAuthEnd r c (by rw [hd]; rfl)
      rcases notAuthEnd_false hc with h1 | h1 | h1
      · right
        subst h1
        rw [List.takeWhile_cons, if_pos (by decide)]
        rfl
      · left
        subst h1
        rw [List.takeWhile_cons, if_neg (by decide)]
      · left
        subst h1
        rw [List.takeWhile_cons, if_neg (by decide)]
  · intro h
    exact absurd h (by simp)

theorem urlParse_valid {t : Str} {u : Url} (h : urlParse t = some u) :
    UValidS { u with query := none, frag := none } := by
  unfold urlParse at h
  rcases hsp : splitAtColon t with _ | ⟨sc, rest⟩ <;> rw [hsp] at h
  · exact absurd h (by simp)
  · dsimp only at h
    by_cases hok : schemeOk sc = true
    · rw [if_pos hok] at h
      rcases rest with _ | ⟨c1, rest1⟩
      · dsimp only at h
        rw [Option.some_inj] at h
        rw [← h, parsePQF_strip]
        refine valid_none sc [] hok ?_
        intro r2 h2
        simp at h2
      · rcases rest1 with _ | ⟨c2, r⟩
        · dsimp only at h
          rw [Option.some_inj] at h
          rw [← h, parsePQF_strip]
          refine valid_none sc [c1] hok ?_
          intro r2 h2
          simp at h2
        · dsimp only at h
          by_cases hsl : c1 = '/' ∧ c2 = '/'
          · rw [if_pos hsl] at h
            rw [Option.some_inj] at h
            rw [← h, parsePQF_strip]
            exact valid_some sc r hok
          · rw [if_neg hsl] at h
            rw [Option.some_inj] at h
            rw [← h, parsePQF_strip]
            refine valid_none sc (c1 :: c2 :: r) hok ?_
            intro r2 h2
            injection h2 with e1 h3
            injection h3 with e2 _
            exact hsl ⟨e1, e2⟩
    · rw [if_neg hok] at h
      exact absurd h (by simp)

theorem urlSerialize_eq (sch : Str) (auth : Option Str) (path : Str) :
    urlSerialize ⟨sch, auth, path, none, none⟩ =
      (sch ++ ':' :: authPartOf auth) ++ path := by
  unfold urlSerialize authPartOf
  cases auth <;> simp

theorem urlParse_colon_rest (sch rest : Str) (hok : schemeOk sch = true)
    (hcol : ∀ c ∈ sch, c ≠ ':')
    (hns : ∀ r2, rest ≠ '/' :: '/' :: r2) :
    urlParse (sch ++ ':' :: rest) = some (parsePQF sch none rest) := by
  unfold urlParse
  rw [splitAtColon_mk sch rest hcol]
  dsimp only
  rw [if_pos hok]
  rcases rest with _ | ⟨c1, r1⟩
  · rfl
  · rcases r1 with _ | ⟨c2, r2⟩
    · rfl
    · dsimp only
      rw [if_neg]
      rintro ⟨e1, e2⟩
      exact hns r2 (by rw [e1, e2])

theorem urlParse_colon_slashes (sch r : Str) (hok : schemeOk sch = true)
    (hcol : ∀ c ∈ sch, c ≠ ':') :
    urlParse (sch ++ ':' :: '/' :: '/' :: r) =
      some (parsePQF sch (some (r.takeWhile notAuthEnd))
        (r.drop (r.takeWhile notAuthEnd).length)) := by
  unfold urlParse
  rw [splitAtColon_mk sch _ hcol]
  dsimp only
  rw [if_pos hok, if_pos ⟨rfl, rfl⟩]

theorem urlParse_serialize (sch : Str) (auth : Option Str) (path : Str)
    (hv : UValidS ⟨sch, auth, path, none, none⟩) :
    urlParse (urlSerialize ⟨sch, auth, path, none, none⟩) =
      some ⟨sch, auth, path, none, none⟩ := by
  rw [urlSerialize_eq]
  have hcol := schemeOk_no_colon sch hv.sOk
  cases auth with
  | none =>
    have he : (sch ++ ':' :: authPartOf none) ++ path = sch ++ ':' :: path := by
      simp [authPartOf]
    rw [he, urlParse_colon_rest sch path hv.sOk hcol (hv.noSS rfl),
      parsePQF_clean sch none path hv.pChars]
  | some a =>
    have he : (sch ++ ':' :: authPartOf (some a)) ++ path =
        sch ++ ':' :: '/' :: '/' :: (a ++ path) := by
      simp [authPartOf]
    have htw : (a ++ path).takeWhile notAuthEnd = a := by
      rcases hp : path with _ | ⟨c, p1⟩
      · rw [List.append_nil]
        exact tw_all _ _ (hv.aChars a rfl)
      · have hstart := hv.pStart (by simp)
        rcases hstart with h1 | h1
        · rw [hp] at h1
          exact absurd h1 (by simp)
        · rw [hp] at h1
          simp only [List.head?_cons, Option.some_inj] at h1
          subst h1
          exact tw_app notAuthEnd a '/' p1 (hv.aChars a rfl) (by decide)
    rw [he, urlParse_colon_slashes sch (a ++ path) hv.sOk hcol, htw, List.drop_left,
      parsePQF_clean sch (some a) path hv.pChars]

theorem normalizeLink_of_parse_none {x : Str} (hx : jsTrim x = x)
    (hp : urlParse x = none) : normalizeLink x = fallbackCleanup x := by
  unfold normalizeLink
  rw [hx, hp]

theorem normalizeLink_of_parse_some {x : Str} {u : Url} (hx : jsTrim x = x)
    (hp : urlParse x = some u) :
    normalizeLink x = stripSlash (urlSerialize { u with query := none, frag := none }) := by
  unfold normalizeLink
  rw [hx, hp]

/-- Counterexample to claim C5 as stated: normalization is not idempotent.
On the input x// the URL parser fails, the fallback strips exactly one
trailing slash and returns x/, and a second application strips the slash
that the first one uncovered, returning x.  The same happens in the
TypeScript source, where one endsWith slice removes a single slash per
call. -/
theorem c5_counterexample :
    normalizeLink (normalizeLink ['x', '/', '/']) ≠ normalizeLink ['x', '/', '/'] := by
  decide

theorem tw_mem (p : Char → Bool) (l : Str) (x : Char) (h : x ∈ l.takeWhile p) :
    p x = true := List.mem_takeWhile_imp h

/-- Claim C5, amended: normalize(normalize(s)) = normalize(s) holds for
every s whose normalized form has no trailing slash and no trailing
whitespace (equivalently, trimming the result leaves it unchanged); in
general a second application can strip one further trailing slash or
trailing whitespace that the first slash-strip exposed. -/
theorem c5_idempotent_amended (s : Str)
    (h1 : lastChar (normalizeLink s) ≠ some '/')
    (h2 : jsTrim (normalizeLink s) = normalizeLink s) :
    normalizeLink (normalizeLink s) = normalizeLink s := by
  set t : Str := jsTrim s with hts
  rcases hp : urlParse t with _ | u
  · have hdef : normalizeLink s = fallbackCleanup t := by
      unfold normalizeLink
      rw [← hts, hp]
    have hout : normalizeLink s =
        stripSlash (jsTrim ((t.takeWhile (fun c => c ≠ '#')).takeWhile
          (fun c => c ≠ '?'))) := hdef
    have htl : trimL ((t.takeWhile (fun c => c ≠ '#')).takeWhile
        (fun c => c ≠ '?')) = (t.takeWhile (fun c => c ≠ '#')).takeWhile
        (fun c => c ≠ '?') := by
      apply trimL_of_head
      intro c hc
      have hc2 : t.head? = some c :=
        pre_head (pre_trans (takeWhile_pre _ _) (takeWhile_pre _ _)) hc
      rw [hts] at hc2
      exact jsTrim_head s c hc2
    have hjq : jsTrim ((t.takeWhile (fun c => c ≠ '#')).takeWhile
        (fun c => c ≠ '?')) = trimR ((t.takeWhile (fun c => c ≠ '#')).takeWhile
        (fun c => c ≠ '?')) := by
      unfold jsTrim
      rw [htl]
    have hpreq : Pre (normalizeLink s)
        ((t.takeWhile (fun c => c ≠ '#')).takeWhile (fun c => c ≠ '?')) := by
      rw [hout, hjq]
      exact pre_trans (stripSlash_pre _) (trimR_pre _)
    have hpre : Pre (normalizeLink s) t :=
      pre_trans hpreq (pre_trans (takeWhile_pre _ _) (takeWhile_pre _ _))
    have hparse : urlParse (normalizeLink s) = none := urlParse_pre_none hpre hp
    have hmemq : ∀ x ∈ normalizeLink s,
        x ∈ (t.takeWhile (fun c => c ≠ '#')).takeWhile (fun c => c ≠ '?') :=
      fun x hx => pre_mem hpreq hx
    have hsh : (normalizeLink s).takeWhile (fun c => c ≠ '#') = normalizeLink s := by
      apply tw_all
      intro x hx
      have h4 : x ∈ t.takeWhile (fun c => c ≠ '#') :=
        pre_mem (takeWhile_pre _ _) (hmemq x hx)
      exact tw_mem _ _ x h4
    have hsq : (normalizeLink s).takeWhile (fun c => c ≠ '?') = normalizeLink s := by
      apply tw_all
      intro x hx
      exact tw_mem _ _ x (hmemq x hx)
    rw [normalizeLink_of_parse_none h2 hparse]
    unfold fallbackCleanup
    rw [hsh, hsq, h2]
    unfold stripSlash
    rw [if_neg h1]
  · have hv : UValidS { u with query := none, frag := none } := urlParse_valid hp
    obtain ⟨sch, auth, path, q, f⟩ := u
    have hv2 : UValidS (⟨sch, auth, path, none, none⟩ : Url) := hv
    have hdef : normalizeLink s = stripSlash (urlSerialize ⟨sch, auth, path, none, none⟩) := by
      unfold normalizeLink
      rw [← hts, hp]
    have hser := urlSerialize_eq sch auth path
    by_cases hsl : lastChar (urlSerialize ⟨sch, auth, path, none, none⟩) = some '/'
    · by_cases hpe : path = []
      · exfalso
        subst hpe
        rw [List.append_nil] at hser
        cases auth with
        | none =>
          rw [hser] at hsl
          have h4 : lastChar (sch ++ ':' :: authPartOf none) = some ':' := by
            show lastChar (sch ++ [':']) = some ':'
            rw [lastChar_append sch [':'] (by simp)]
            rfl
          rw [h4] at hsl
          exact absurd (Option.some_inj.mp hsl) (by decide)
        | some a =>
          rcases ha : a with _ | ⟨y, ys⟩
          · subst ha
            apply h1
            have hout : normalizeLink s = sch ++ [':', '/'] := by
              rw [hdef]
              unfold stripSlash
              rw [if_pos hsl]
              have h5 : urlSerialize (⟨sch, some [], [], none, none⟩ : Url) =
                  (sch ++ [':', '/']) ++ ['/'] := by
                rw [urlSerialize_eq]
                simp [authPartOf]
              rw [h5, List.dropLast_concat]
            rw [hout, lastChar_append sch [':', '/'] (by simp)]
            rfl
          · subst ha
            rcases hla : lastChar (y :: ys) with _ | x
            · unfold lastChar at hla
              rw [List.getLast?_eq_getLast (y :: ys) (by simp)] at hla
              exact Option.noConfusion hla
            · have hxmem : x ∈ (y :: ys) := lastChar_mem _ x hla
              have hnae : notAuthEnd x = true := hv2.aChars (y :: ys) rfl x hxmem
              rw [hser] at hsl
              have h4 : lastChar (sch ++ ':' :: authPartOf (some (y :: ys))) = some x := by
                show lastChar (sch ++ ([':', '/', '/'] ++ (y :: ys))) = some x
                rw [lastChar_append sch _ (by simp),
                  lastChar_append [':', '/', '/'] (y :: ys) (by simp)]
                exact hla
              rw [h4] at hsl
              rw [Option.some_inj.mp hsl] at hnae
              exact absurd hnae (by decide)
      · have hlp : lastChar path = some '/' := by
          rw [hser, lastChar_append _ _ hpe] at hsl
          exact hsl
        have hgl : path.getLast hpe = '/' := by
          have h4 := List.getLast?_eq_getLast path hpe
          unfold lastChar at hlp
          rw [h4] at hlp
          exact Option.some_inj.mp hlp
        have hsplit : path = path.dropLast ++ ['/'] := by
          have h5 := List.dropLast_append_getLast hpe
          rw [hgl] at h5
          exact h5.symm
        have hout : normalizeLink s = (sch ++ ':' :: authPartOf auth) ++ path.dropLast := by
          rw [hdef]
          unfold stripSlash
          rw [if_pos hsl, hser, List.dropLast_append_of_ne_nil _ hpe]
        have hv3 : UValidS (⟨sch, auth, path.dropLast, none, none⟩ : Url) := by
          refine ⟨hv2.sOk, hv2.aChars, ?_, ?_, ?_, rfl, rfl⟩
          · intro c hc
            exact hv2.pChars c (List.mem_of_mem_dropLast hc)
          · intro hsome
            rcases hv2.pStart hsome with hz | hz
            · exact absurd hz hpe
            · rcases hdl : path.dropLast with _ | ⟨w, ws⟩
              · left
                rfl
              · right
                have hw : path.head? = some w := by
                  rw [hsplit, hdl]
                  rfl
                rw [hw] at hz
                exact hz
          · intro hnone r2 hr2
            have hnone2 : auth = none := hnone
            have hr2b : path.dropLast = '/' :: '/' :: r2 := hr2
            apply hv2.noSS hnone2 (r2 ++ ['/'])
            show path = '/' :: '/' :: (r2 ++ ['/'])
            rw [hsplit, hr2b]
            simp
        have hser2 : urlSerialize (⟨sch, auth, path.dropLast, none, none⟩ : Url) =
            (sch ++ ':' :: authPartOf auth) ++ path.dropLast := urlSerialize_eq sch auth _
        have hps : urlParse (normalizeLink s) =
            some ⟨sch, auth, path.dropLast, none, none⟩ := by
          rw [hout, ← hser2]
          exact urlParse_serialize sch auth path.dropLast hv3
        rw [normalizeLink_of_parse_some h2 hps]
        show stripSlash (urlSerialize (⟨sch, auth, path.dropLast, none, none⟩ : Url)) =
          normalizeLink s
        rw [hser2, ← hout]
        unfold stripSlash
        rw [if_neg h1]
    · have hout : normalizeLink s = urlSerialize ⟨sch, auth, path, none, none⟩ := by
        rw [hdef]
        unfold stripSlash
        rw [if_neg hsl]
      have hps : urlParse (normalizeLink s) = some ⟨sch, auth, path, none, none⟩ := by
        rw [hout]
        exact urlParse_serialize sch auth path hv2
      rw [normalizeLink_of_parse_some h2 hps]
      show stripSlash (urlSerialize (⟨sch, auth, path, none, none⟩ : Url)) = normalizeLink s
      rw [← hout]
      unfold stripSlash
      rw [if_neg h1]

/-- Witness for claim C5 amended at a concrete input whose normalized form
has no trailing slash or whitespace. -/
theorem c5_witness :
    normalizeLink (normalizeLink ['x', '/']) = normalizeLink ['x', '/'] :=
  c5_idempotent_amended ['x', '/'] (by decide) (by decide)

end Nefcode
